import Mathlib

/-!
Verification of the color-math core of `proplot/colortools.py`.

The Python functions are shallowly embedded over exact rationals (`ℚ`
stands in for IEEE floats; all claim-relevant computations are exact at
the inputs considered).  Lists stand in for 1-D numpy arrays, and list
index/slice helpers reproduce Python/numpy semantics (clamping slices,
`side='left'` searchsorted, Python `%`, …).  Floating-point
exponentiation `a ** g` has no rational counterpart, so
`make_mapping_array` is parameterized by an abstract power function
`rp : ℚ → ℚ → ℚ`; every theorem about it holds for all `rp`, and concrete
instances use a power that agrees with the float semantics at the chosen
exponent (e.g. squaring for `gamma = 2`).
-/

/-- A color, as an RGB(A-free) triple of channel values. -/
abbrev Color : Type := ℚ × ℚ × ℚ

/-- One row `(x, y0, y1)` of channel segment data. -/
abbrev SegRow : Type := ℚ × ℚ × ℚ

/-- Clamp one bound of a Python slice `l[a:b]` to `[0, n]`; `d` is the
default used when the bound is `None`. -/
def sliceBound (n : ℕ) (d : ℕ) (oi : Option ℤ) : ℕ :=
  match oi with
  | none => d
  | some i => if i < 0 then (i + n).toNat else min i.toNat n

/-- Python list slice `l[a:b]` (integer or `None` bounds, clamping,
negative indices counted from the end). -/
def pySliceL {α : Type} (l : List α) (a b : Option ℤ) : List α :=
  (l.take (sliceBound l.length l.length b)).drop (sliceBound l.length 0 a)

/-- Embedding of `numpy.searchsorted(a, v)` with the default side, left: the number
of leading elements of `a` that are `< v`. -/
def searchsorted (a : List ℚ) (v : ℚ) : ℕ :=
  match a with
  | [] => 0
  | x :: rest => if x < v then searchsorted rest v + 1 else 0

/-- Embedding of `numpy.linspace(a, b, n)` (endpoint included; `n = 1` gives `[a]`,
matching numpy, because `q / 0 = 0` in `ℚ`). -/
def linspace (a b : ℚ) (n : ℕ) : List ℚ :=
  (List.range n).map (fun (i : ℕ) => a + (b - a) * (i : ℚ) / ((n - 1 : ℕ) : ℚ))

/-- Embedding of `numpy.min` of a list (the list is nonempty wherever the source
evaluates it). -/
def npmin (l : List ℚ) : ℚ := l.foldr min (l.headD 0)

/-- Embedding of `numpy.max` of a list. -/
def npmax (l : List ℚ) : ℚ := l.foldr max (l.headD 0)

/-- A registered colormap: either a `matplotlib.colors.ListedColormap`
(a discrete color cycle) or a segment-data colormap
(`LinearSegmentedColormap`; per-channel `(x, y0, y1)` control points
keyed by channel name).  The `PerceptuallyUniformColormap` extras
(`gamma1`/`gamma2` entries, `_space` tag) are outside this model; no
claim touches them. -/
inductive Cmap : Type where
  | listed (colors : List Color)
  | segmented (segmentdata : List (String × List SegRow))
deriving DecidableEq

/-- Embedding of `Colormap.reversed()`: `ListedColormap.reversed` reverses the color
list; `LinearSegmentedColormap.reversed` maps each channel's rows
`(x, y0, y1)` to `(1 - x, y1, y0)` in reversed order. -/
def revCmap : Cmap → Cmap
  | .listed colors => .listed colors.reverse
  | .segmented data =>
      .segmented (data.map (fun kv =>
        (kv.1, (kv.2.map (fun r => (1 - r.1, r.2.2, r.2.1))).reverse)))

/-- The colors of a listed colormap (only queried on `listed` inputs). -/
def listedColors : Cmap → List Color
  | .listed cs => cs
  | .segmented _ => []

/-- Whether a colormap is a `ListedColormap`. -/
def isListed : Cmap → Bool
  | .listed _ => true
  | .segmented _ => false

/-- A rational that is a Python `int` (integral value), if any. -/
def qInt? (q : ℚ) : Option ℤ := if q.den = 1 then some q.num else none

/-- A slice argument for a Python list: `None` or an `int`.  A non-`int`
number makes list slicing raise `TypeError`. -/
def sliceArg? : Option ℚ → Option (Option ℤ)
  | none => some none
  | some q => (qInt? q).map some

/-- numpy row read `rows[i]` with Python negative-index wrap-around (the
source hits a negative index when a cut point precedes every control
point; out-of-range reads, where Python would raise `IndexError`, return
a zero row). -/
def pyGetRow (rows : List SegRow) (i : ℤ) : SegRow :=
  if i < 0 then rows.getD (rows.length + i).toNat (0, 0, 0)
  else rows.getD i.toNat (0, 0, 0)

/-- Per-channel resampling stage of `_clip_cmap` of segment data onto
`[left, right]` (the `for key,xyy in dict_.items()` body). -/
def _clip_channel (l r : ℚ) (xyy : List SegRow) : Except String (List SegRow) :=
  let x := xyy.map (·.1)
  let xleft := (List.range xyy.length).filter (fun i => l < x.getD i 0)
  let xright := (List.range xyy.length).filter (fun i => x.getD i 0 < r)
  if xleft.length = 0 then .error "Invalid x minimum."
  else if xright.length = 0 then .error "Invalid x maximum."
  else
    let li := xleft.headD 0
    let ri := xright.getLastD 0
    let ixyy := (xyy.take (ri + 1)).drop li
    let rl0 := pyGetRow xyy (li - 1)
    let rl1 := pyGetRow xyy li
    let xl : SegRow :=
      (l, rl0.2.1 + (l - rl0.1) * (rl1.2.1 - rl0.2.1) / (rl1.1 - rl0.1),
          rl0.2.2 + (l - rl0.1) * (rl1.2.2 - rl0.2.2) / (rl1.1 - rl0.1))
    let rr0 := pyGetRow xyy ri
    let rr1 := pyGetRow xyy (ri + 1)
    let xr : SegRow :=
      (r, rr0.2.1 + (r - rr0.1) * (rr1.2.1 - rr0.2.1) / (rr1.1 - rr0.1),
          rr0.2.2 + (r - rr0.1) * (rr1.2.2 - rr0.2.2) / (rr1.1 - rr0.1))
    let merged := xl :: ixyy ++ [xr]
    .ok (merged.map (fun row => ((row.1 - l) / (r - l), row.2.1, row.2.2)))

/-- Embedding of `_clip_cmap(cmap, left, right)`: identity when both bounds are
`None`; for listed colormaps, Python slice of the color list (raising
only when a bound is not an `int`, since integer slices clamp and never
raise); for segment-data colormaps, per-channel resampling.  The
`gamma1`/`gamma2` slicing applies only to `PerceptuallyUniformColormap`
keys, which are outside this model. -/
def _clip_cmap (cmap : Cmap) (left right : Option ℚ) : Except String Cmap :=
  match left, right with
  | none, none => .ok cmap
  | _, _ =>
    match cmap with
    | .listed colors =>
        match sliceArg? left, sliceArg? right with
        | some a, some b => .ok (.listed (pySliceL colors a b))
        | _, _ => .error "Invalid slice for listed colormap."
    | .segmented data =>
        let l := left.getD 0
        let r := match right with | none => 1 | some q => if q = 0 then 1 else q
        do
          let data' ← data.mapM (fun kv => do
            let c ← _clip_channel l r kv.2
            pure (kv.1, c))
          pure (.segmented data')

/-- Python float `x % 1` (value in `[0, 1)`). -/
def qmod1 (q : ℚ) : ℚ := q - ⌊q⌋

/-- Per-channel coordinate shift of `_shift_cmap` for smooth colormaps:
drop the first row, shift and wrap the x-coordinates, re-sort, duplicate
the wrap-around boundary color, renormalize x to `[0, 1]`. -/
def _shift_channel (k : ℤ) (rows : List SegRow) : List SegRow :=
  let orig := rows.drop 1
  let arr := orig.map (fun row => (qmod1 (row.1 - (k : ℚ) / 360), row.2.1, row.2.2))
  let sorted := arr.mergeSort (fun a b => a.1 ≤ b.1)
  let la := sorted.getLastD (0, 0, 0)
  let x0 := (sorted.getD 0 (0, 0, 0)).1
  let x1 := (sorted.getD 1 (0, 0, 0)).1
  let arr2 := (x0 - (x1 - x0), la.2.1, la.2.2) :: sorted
  let xs := arr2.map (·.1)
  let m := npmin xs
  let M := npmax xs
  arr2.map (fun row => ((row.1 - m) / (M - m), row.2.1, row.2.2))

/-- Embedding of `_shift_cmap(cmap, shift)`: bail out when `shift` is `None` or `0`
(Python `if not shift`); rotate the color list of a listed colormap by
`shift % len` positions; shift the coordinates of a smooth colormap.
(`shift` is modeled as an integer; degree counts are integral in every
use.) -/
def _shift_cmap (cmap : Cmap) (shift : Option ℤ) : Cmap :=
  match shift with
  | none => cmap
  | some k =>
    if k = 0 then cmap
    else
      match cmap with
      | .listed colors =>
          let s := (k % (colors.length : ℤ)).toNat
          .listed (colors.drop s ++ colors.take s)
      | .segmented data =>
          .segmented (data.map (fun kv => (kv.1, _shift_channel k kv.2)))

/-- A Python argument that is either a number or a list of numbers
(the `ratios` argument of `_merge_cmaps`). -/
inductive NumOrList : Type where
  | num (q : ℚ)
  | list (l : List ℚ)
deriving DecidableEq

/-- Channel segment data of a colormap, by key. -/
def segLookup (c : Cmap) (key : String) : Option (List SegRow) :=
  match c with
  | .listed _ => none
  | .segmented data => (data.find? (fun kv => kv.1 = key)).map (·.2)

/-- Channel keys of a colormap. -/
def segKeys : Cmap → List String
  | .listed _ => []
  | .segmented data => data.map (·.1)

/-- Replace the `y1` entry of the last row. -/
def setLastY1 (rows : List SegRow) (v : ℚ) : List SegRow :=
  match rows.getLast? with
  | none => rows
  | some la => rows.dropLast ++ [(la.1, la.2.1, v)]

/-- Junction fusing of `_merge_cmaps`: for each internal junction, set the
outgoing `y1` of the left map's last row to the incoming `y1` of the
right map's first row, then drop that first row (sequentially, as the
source's loop mutates `datas`). -/
def fuseSeq : List (List SegRow) → List (List SegRow)
  | [] => []
  | [d] => [d]
  | d1 :: d2 :: rest =>
      setLastY1 d1 ((d2.headD (0, 0, 0)).2.2) :: fuseSeq (d2.drop 1 :: rest)
termination_by l => l.length
decreasing_by simp

/-- Embedding of `_merge_cmaps(*imaps, ratios)`: single map passes through; mixed
concrete types are an error; listed colormaps merge by concatenating
their color lists (before `ratios` is ever read); smooth colormaps merge
by rescaling each channel into its ratio-weighted sub-range, fusing
junctions and renormalizing x.  The `PerceptuallyUniformColormap` gamma
and `space` bookkeeping is outside this model. -/
def _merge_cmaps (imaps : List Cmap) (ratios : NumOrList) : Except String Cmap :=
  match imaps with
  | [m] => .ok m
  | ms =>
    if ms.isEmpty then .error "Mixed colormap types."
    else if ¬ (ms.all (fun m => isListed m) ∨ ms.all (fun m => !isListed m)) then
      .error "Mixed colormap types."
    else if ms.all (fun m => isListed m) then
      .ok (.listed (ms.flatMap listedColors))
    else
      let rs := match ratios with
        | .num _ => List.replicate ms.length (1 : ℚ)
        | .list l => if l = [] then List.replicate ms.length 1 else l
      let rsn := rs.map (· / rs.sum)
      let x0 := rsn.scanl (· + ·) 0
      let xw := (x0.tail.zip x0).map (fun p => p.1 - p.2)
      let keys := (ms.flatMap segKeys).dedup
      do
        let channels ← keys.mapM (fun key => do
          let rows ← ms.mapM (fun m =>
            match segLookup m key with
            | some rows => Except.ok rows
            | none => Except.error "KeyError")
          let datas := (((x0.zip xw).zip rows).map (fun t =>
            t.2.map (fun row => (t.1.1 + t.1.2 * row.1, row.2.1, row.2.2))))
          let fused := (fuseSeq datas).flatten
          let M := npmax (fused.map (·.1))
          pure (key, fused.map (fun row => (row.1 / M, row.2.1, row.2.2))))
        pure (Cmap.segmented channels)

/-- Embedding of Python `str.lower()`. -/
def strLower (s : String) : String := String.mk (s.data.map Char.toLower)

/-- Test for Python `key[-2:] == chr(95) + chr(114)`, i.e. the reversed-colormap
suffix test. -/
def strEndsR (s : String) : Bool := decide (s.data.reverse.take 2 = ['r', '_'])

/-- Drop the two-character reversal suffix (`key[:-2]`). -/
def strDropR2 (s : String) : String := String.mk (s.data.take (s.data.length - 2))

/-- Python string slice `name[slice(a, b)]`. -/
def pySliceS (s : String) (a b : Option ℤ) : String := String.mk (pySliceL s.data a b)

/-- Embedding of `_cmap_parts`: slice indices splitting each diverging colormap name
into its color parts. -/
def _cmap_parts : List (String × List (Option ℤ)) :=
  [("piyg", [none, some 2, none]),
   ("prgn", [none, some 1, some 2, none]),
   ("brbg", [none, some 2, some 3, none]),
   ("puor", [none, some 2, none]),
   ("rdgy", [none, some 2, none]),
   ("rdbu", [none, some 2, none]),
   ("rdylbu", [none, some 2, some 4, none]),
   ("rdylgn", [none, some 2, some 4, none]),
   ("bwr", [none, some 1, some 2, none]),
   ("coldhot", [none, some 4, none]),
   ("negpos", [none, some 3, none]),
   ("drywet", [none, some 3, none])]

/-- The mirror of a name: slice it into parts at the given indices, then
join the parts in reversed order. -/
def mirrorOf (name : String) (idxs : List (Option ℤ)) : String :=
  String.join (((List.range (idxs.length - 1)).map (fun i =>
    pySliceS name (idxs.getD i none) (idxs.getD (i + 1) none))).reverse)

/-- Embedding of `_cmap_mirrors`: pairs `(name, mirror-image name)`. -/
def _cmap_mirrors : List (String × String) :=
  _cmap_parts.map (fun p => (p.1, mirrorOf p.1 p.2))

/-- Lookup in the underlying `dict` (keys stored lowercase, exact
match); `CmapDict` state is an association list. -/
def dictLookup (d : List (String × Cmap)) (k : String) : Option Cmap :=
  (d.find? (fun p => p.1 = k)).map (·.2)

/-- The `_cmap_mirrors` loop of `CmapDict._sanitize_key`: the partner of
`key` in the last mirror pair containing it (`tuple.index` prefers the
first component), or `key` itself if no pair contains it. -/
def mirrorKey (key : String) : String :=
  _cmap_mirrors.foldl (fun acc p =>
    if p.1 = key then p.2 else if p.2 = key then p.1 else acc) key

/-- Embedding of `CmapDict._sanitize_key`: lowercase, strip a trailing reversal
suffix, fall back to the mirror name when the key itself is not stored,
and re-attach the suffix. -/
def _sanitize_key (d : List (String × Cmap)) (key : String) : String :=
  let key := strLower key
  let sr := strEndsR key
  let key1 := if sr then strDropR2 key else key
  let reverse := sr
  let st :=
    if (dictLookup d key1).isSome then (key1, reverse)
    else
      let keyMirror := mirrorKey key1
      if (dictLookup d keyMirror).isSome then (keyMirror, !reverse)
      else (key1, reverse)
  if st.2 then st.1 ++ "_r" else st.1

/-- Embedding of `CmapDict._getitem`: dictionary read without key sanitization; a
trailing reversal suffix triggers `Colormap.reversed()` on the stored
entry.  A missing key is a `KeyError`. -/
def _cmapdict_getitem_raw (d : List (String × Cmap)) (key : String) : Except String Cmap :=
  if strEndsR key then
    match dictLookup d (strDropR2 key) with
    | none => .error "KeyError"
    | some v => .ok (revCmap v)
  else
    match dictLookup d key with
    | none => .error "KeyError"
    | some v => .ok v

/-- Embedding of `CmapDict.__getitem__`: sanitize the key, then query. -/
def cmapdict_getitem (d : List (String × Cmap)) (key : String) : Except String Cmap :=
  _cmapdict_getitem_raw d (_sanitize_key d key)

/-- Positional map: apply `f p a` to the element at position `p`,
starting from position `p0` (models numpy's masked slice assignment). -/
def mapPos {α : Type} (f : ℕ → α → α) : ℕ → List α → List α
  | _, [] => []
  | p, a :: rest => f p a :: mapPos f (p + 1) rest

/-- One iteration of `make_mapping_array`'s gamma loop, for the segment
group of value `v`: skip when the segment's gamma is 1; otherwise warp
`distance` over the group slice `[ui, ui + ci)` (`np.unique`'s
first-occurrence index and count — the `ind` array is non-decreasing, so
the group slice is exactly the run of positions holding `v`), inverted
when `reverse` XOR (the group has more than one point and the channel
difference `y0[v] - y1[v-1]` across the segment is negative). -/
def _gamma_step (rp : ℚ → ℚ → ℚ) (gammas y0 y1 : List ℚ) (reverse : Bool)
    (I : List ℕ) (D : List ℚ) (v : ℕ) : List ℚ :=
  let g := gammas.getD (v - 1) 0
  if g = 1 then D
  else
    let ui := I.indexOf v
    let ci := I.count v
    let ir := xor reverse (decide (1 < ci) && decide (y0.getD v 0 - y1.getD (v - 1) 0 < 0))
    mapPos (fun p d =>
      if ui ≤ p ∧ p < ui + ci then (if ir then 1 - rp (1 - d) g else rp d g) else d) 0 D

/-- The gamma-scaling loop of `make_mapping_array` (`for i,(ui,ci) in
enumerate(zip(uind,cind))`): fold the per-group warp over the distinct
values of the (sorted) `ind` array. -/
def _apply_gamma (rp : ℚ → ℚ → ℚ) (gammas y0 y1 : List ℚ) (reverse : Bool)
    (I : List ℕ) (D : List ℚ) : List ℚ :=
  I.dedup.foldl (_gamma_step rp gammas y0 y1 reverse I) D

/-- The per-position form of the gamma warp: what
`make_mapping_array`'s grouped loop does to the distance at a single
lookup position whose bracketing segment index is `v`.  The inverted
form fires exactly when `reverse` XOR (the segment holds more than one
lookup position AND its net channel difference `y0[v] - y1[v-1]` is
strictly negative). -/
def gammaPointwise (rp : ℚ → ℚ → ℚ) (gammas y0 y1 : List ℚ) (reverse : Bool)
    (I : List ℕ) (v : ℕ) (x : ℚ) : ℚ :=
  let g := gammas.getD (v - 1) 0
  if g = 1 then x
  else if xor reverse (decide (1 < I.count v) &&
      decide (y0.getD v 0 - y1.getD (v - 1) 0 < 0)) then
    1 - rp (1 - x) g
  else rp x g

/-- Segment data for one channel: tabular control points or a callable. -/
inductive SegInput : Type where
  | tabular (rows : List SegRow)
  | functional (f : ℚ → ℚ)

/-- Embedding of `make_mapping_array(N, data, gamma, reverse)`.  `gamma` is the
`np.atleast_1d` list (a scalar argument is the singleton list); `rp`
stands in for float `**`.  Validation order follows the source: gamma
range, callable dispatch, shape, gamma count, endpoint and monotonicity
checks, then the searchsorted/gamma-warped interpolation.  (After the
endpoint check `x[0] = 0` passes, every interior `searchsorted` index is
at least 1, so `ℕ` subtraction in `ind - 1` agrees with Python.) -/
def make_mapping_array (rp : ℚ → ℚ → ℚ) (N : ℕ) (data : SegInput)
    (gamma : List ℚ) (reverse : Bool) : Except String (List ℚ) :=
  let gammas := gamma
  if gammas.any (fun g => decide (g < 1/100)) || gammas.any (fun g => decide (10 < g)) then
    .error "Gamma can only be in range [0.01,10]."
  else
    match data with
    | .functional f =>
        if 1 < gammas.length then .error "Only one gamma allowed for functional segmentdata."
        else .ok ((linspace 0 1 N).map (fun t => f (rp t (gammas.getD 0 1))))
    | .tabular rows =>
        if rows.length = 0 then .error "Data must be nx3 format."
        else if gammas.length ≠ 1 ∧ gammas.length ≠ rows.length - 1 then
          .error "Need rows-1 gammas for rows-level mapping array."
        else
          let gfull := if gammas.length = 1 then List.replicate rows.length (gammas.getD 0 0)
            else gammas
          let x := rows.map (·.1)
          let y0 := rows.map (·.2.1)
          let y1 := rows.map (·.2.2)
          if ¬ (x.getD 0 0 = 0 ∧ x.getD (rows.length - 1) 0 = 1) then
            .error "Data mapping points must start with x=0 and end with x=1."
          else if ((x.tail.zip x).map (fun p => p.1 - p.2)).any (fun d => decide (d < 0)) then
            .error "Data mapping points must have x in increasing order."
          else
            let xs := x.map (· * ((N : ℚ) - 1))
            let xq := (linspace 0 1 N).map (· * ((N : ℚ) - 1))
            let xqIn := (xq.drop 1).dropLast
            let I := xqIn.map (searchsorted xs)
            let D := (xqIn.zip I).map (fun p =>
              (p.1 - xs.getD (p.2 - 1) 0) / (xs.getD p.2 0 - xs.getD (p.2 - 1) 0))
            let D2 := _apply_gamma rp gfull y0 y1 reverse I D
            let interior := (D2.zip I).map (fun p =>
              p.1 * (y0.getD p.2 0 - y1.getD (p.2 - 1) 0) + y1.getD (p.2 - 1) 0)
            .ok ([y1.getD 0 0] ++ interior ++ [y0.getD (rows.length - 1) 0])

/-- Embedding of `LinearSegmentedNorm.__init__` validation: at least two levels,
strictly increasing. -/
def LinearSegmentedNorm_init (levels : List ℚ) : Except String (List ℚ) :=
  if levels.length ≤ 1 then .error "Need at least two levels."
  else if ((levels.tail.zip levels).map (fun p => p.1 - p.2)).any (fun d => decide (d ≤ 0)) then
    .error "Levels must be monotonically increasing."
  else .ok levels

/-- The vectorized interpolation pattern shared verbatim by
`LinearSegmentedNorm.__call__`, `LinearSegmentedNorm.inverse` and
`MidpointNorm.__call__`/`inverse`: a `searchsorted` index against the
source array `x`, clamped into `[1, len(x) - 1]` (the two masked
assignments `ind[ind==0] = 1` and `ind[ind==len(x)] = len(x)-1`), then
linear interpolation onto the target array `y`. -/
def npinterp (x y : List ℚ) (q : ℚ) : ℚ :=
  let i0 := searchsorted x q
  let ind := if i0 = 0 then 1 else if i0 = x.length then x.length - 1 else i0
  let d := (q - x.getD (ind - 1) 0) / (x.getD ind 0 - x.getD (ind - 1) 0)
  d * (y.getD ind 0 - y.getD (ind - 1) 0) + y.getD (ind - 1) 0

/-- Embedding of `LinearSegmentedNorm.__call__`: fractional index position of `xq`
among the levels (interpolation from data space to the index space
`linspace 0 1 n`). -/
def LinearSegmentedNorm_call (levels : List ℚ) (xq : ℚ) : ℚ :=
  npinterp levels (linspace 0 1 levels.length) xq

/-- Embedding of `LinearSegmentedNorm.inverse`: the same interpolation with the roles
of the level array and the index array exchanged. -/
def LinearSegmentedNorm_inverse (levels : List ℚ) (yq : ℚ) : ℚ :=
  npinterp (linspace 0 1 levels.length) levels yq

/-- The state of a `MidpointNorm` (the fields `__init__` stores;
`vmin`/`vmax` are modeled as given, as in every claim). -/
structure MidpointNormS : Type where
  midpoint : ℚ
  vmin : ℚ
  vmax : ℚ
deriving DecidableEq

/-- Embedding of `MidpointNorm.__init__`: stores `vmin`, `vmax` (via
`Normalize.__init__`) and the midpoint.  There is no validation here;
the midpoint range check lives in `__call__`. -/
def MidpointNorm_init (midpoint vmin vmax : ℚ) : MidpointNormS :=
  ⟨midpoint, vmin, vmax⟩

/-- Embedding of `MidpointNorm.__call__`: raise when the midpoint is not strictly
inside `(vmin, vmax)`; otherwise interpolate through the three-point map
`{vmin → 0, midpoint → 0.5, vmax → 1}` with a clamped searchsorted
index. -/
def MidpointNorm_call (nrm : MidpointNormS) (xq : ℚ) : Except String ℚ :=
  if nrm.vmin ≥ nrm.midpoint ∨ nrm.vmax ≤ nrm.midpoint then
    .error "Midpoint outside of vmin and vmax."
  else
    .ok (npinterp [nrm.vmin, nrm.midpoint, nrm.vmax] [0, 1/2, 1] xq)

/-- The state a `BinNorm` carries to call time: the pre-normalizer, the
pre-normalized level boundaries `x_b`, and the discrete index array
`y`. -/
structure BinNormS : Type where
  normf : ℚ → ℚ
  x_b : List ℚ
  y : List ℚ

/-- Embedding of `BinNorm.__init__`: validate levels and `extend`; pre-normalize the
levels, take level centers, rescale them to span `[0, 1]`, compress by
`eps = step / len(levels)` at each extended end, and concatenate the
out-of-bounds indices 0 and 1.  The pre-normalizer is an explicit
function (`None` in the source means the autoscaled linear
`Normalize()`); the `LogNorm` domain clip is outside this model, and the
`isfinite` filtering is the identity over `ℚ`. -/
def BinNorm_init (levels : List ℚ) (normf : ℚ → ℚ) (step : ℚ) (extend : String) :
    Except String BinNormS :=
  if levels.length ≤ 1 then .error "Need at least two levels."
  else if ((levels.tail.zip levels).map (fun p => p.1 - p.2)).any (fun d => decide (d ≤ 0)) then
    .error "Levels must be monotonically increasing."
  else if ¬ (extend = "both" ∨ extend = "min" ∨ extend = "max" ∨ extend = "neither") then
    .error "Unknown extend option."
  else
    let x_b := levels.map normf
    let x_m := (x_b.tail.zip x_b).map (fun p => (p.1 + p.2) / 2)
    let ynorm := x_m.map (fun t => (t - npmin x_m) / (npmax x_m - npmin x_m))
    let eps := step / levels.length
    let offset := if extend = "min" ∨ extend = "both" then eps else 0
    let scale := (if extend = "min" ∨ extend = "both" then 1 - eps else 1) -
      (if extend = "max" ∨ extend = "both" then eps else 0)
    .ok ⟨normf, x_b, [0] ++ ynorm.map (fun t => offset + scale * t) ++ [1]⟩

/-- Embedding of `BinNorm.__call__`: pre-normalize the query and read the discrete
index selected by `searchsorted` against the boundary array. -/
def BinNorm_call (b : BinNormS) (xq : ℚ) : ℚ :=
  b.y.getD (searchsorted b.x_b (b.normf xq)) 0

/-- Embedding of `BinNorm.inverse`: unconditionally raises (discretization is not
invertible). -/
def BinNorm_inverse (_b : BinNormS) (_yq : ℚ) : Except String ℚ :=
  .error "BinNorm is not invertible."
theorem searchsorted_le_length (a : List ℚ) (v : ℚ) : searchsorted a v ≤ a.length := by
  induction a with
  | nil => simp [searchsorted]
  | cons x rest ih =>
    simp only [searchsorted, List.length_cons]
    split <;> omega

theorem getD_lt_of_lt_searchsorted (a : List ℚ) (v : ℚ) (k : ℕ)
    (hk : k < searchsorted a v) : a.getD k 0 < v := by
  induction a generalizing k with
  | nil => simp [searchsorted] at hk
  | cons x rest ih =>
    simp only [searchsorted] at hk
    by_cases hx : x < v
    · rw [if_pos hx] at hk
      cases k with
      | zero => simpa using hx
      | succ k => simpa using ih k (by omega)
    · rw [if_neg hx] at hk; omega

theorem le_getD_searchsorted (a : List ℚ) (v : ℚ) (h : searchsorted a v < a.length) :
    v ≤ a.getD (searchsorted a v) 0 := by
  induction a with
  | nil => simp at h
  | cons x rest ih =>
    simp only [searchsorted, List.length_cons] at h ⊢
    by_cases hx : x < v
    · rw [if_pos hx] at h ⊢
      simpa using ih (by omega)
    · rw [if_neg hx] at h ⊢
      simpa using not_lt.mp hx

theorem searchsorted_eq (a : List ℚ) (v : ℚ) (i : ℕ) (hi : i ≤ a.length)
    (hlt : ∀ k, k < i → a.getD k 0 < v) (hge : i < a.length → v ≤ a.getD i 0) :
    searchsorted a v = i := by
  rcases lt_trichotomy (searchsorted a v) i with h | h | h
  · have hv := le_getD_searchsorted a v (lt_of_lt_of_le h hi)
    exact absurd (hlt _ h) (not_lt.mpr hv)
  · exact h
  · have hv := getD_lt_of_lt_searchsorted a v i h
    have hil : i < a.length := lt_of_lt_of_le h (searchsorted_le_length a v)
    exact absurd hv (not_lt.mpr (hge hil))

theorem linspace_length (a b : ℚ) (n : ℕ) : (linspace a b n).length = n := by
  rw [linspace, List.length_map, List.length_range]

theorem linspace_getD (n i : ℕ) (hi : i < n) :
    (linspace 0 1 n).getD i 0 = (i : ℚ) / ((n : ℚ) - 1) := by
  have h1 : 1 ≤ n := by omega
  rw [linspace, List.getD_eq_getElem?_getD, List.getElem?_map, List.getElem?_range hi]
  simp only [Option.map_some', Option.getD_some]
  rw [Nat.cast_sub h1]
  push_cast
  ring

theorem chain_lt_getD (l : List ℚ) (hc : l.Chain' (· < ·)) (i j : ℕ)
    (hij : i < j) (hj : j < l.length) : l.getD i 0 < l.getD j 0 := by
  have hp : l.Pairwise (· < ·) := List.chain'_iff_pairwise.mp hc
  have hi : i < l.length := lt_trans hij hj
  have h := List.pairwise_iff_get.mp hp ⟨i, hi⟩ ⟨j, hj⟩ hij
  rw [List.getD_eq_getElem?_getD, List.getD_eq_getElem?_getD,
    List.getElem?_eq_getElem hi, List.getElem?_eq_getElem hj]
  simpa using h

theorem npinterp_eval (x y : List ℚ) (q : ℚ) (j : ℕ) (hj : searchsorted x q = j)
    (hj0 : j ≠ 0) (hjn : j ≠ x.length) :
    npinterp x y q =
      (q - x.getD (j - 1) 0) / (x.getD j 0 - x.getD (j - 1) 0) *
        (y.getD j 0 - y.getD (j - 1) 0) + y.getD (j - 1) 0 := by
  simp only [npinterp]
  rw [hj, if_neg hj0, if_neg hjn]

theorem npinterp_eval0 (x y : List ℚ) (q : ℚ) (hj : searchsorted x q = 0) :
    npinterp x y q =
      (q - x.getD 0 0) / (x.getD 1 0 - x.getD 0 0) *
        (y.getD 1 0 - y.getD 0 0) + y.getD 0 0 := by
  simp only [npinterp]
  rw [hj]
  norm_num

/-- C7: `BinNorm.inverse` raises an error on every input, for every
`BinNorm` instance and every argument — the discretizing binning
normalizer has no inverse by design. -/
theorem binNorm_inverse_always_fails (b : BinNormS) (yq : ℚ) :
    BinNorm_inverse b yq = Except.error "BinNorm is not invertible." := rfl

/-- C6: merging two discrete (listed) colormaps yields a discrete
colormap whose color list is exactly the concatenation of the two color
lists in order, for every choice of the `ratios` argument (ratios have
no effect on discrete merges). -/
theorem merge_listed_concat (l1 l2 : List Color) (ratios : NumOrList) :
    _merge_cmaps [.listed l1, .listed l2] ratios = .ok (.listed (l1 ++ l2)) := by
  simp [_merge_cmaps, isListed, listedColors]

/-- C9: shifting a discrete colormap of `n` colors by `k` positions
rotates the color list by `k mod n` (so a 4-color cycle shifted by 2
yields the rotation `[c3, c4, c1, c2]`), and shifting by any integer
multiple of `n` yields the same color sequence as the input. -/
theorem shift_listed_rotate (colors : List Color) (k : ℤ) (h : 0 < colors.length) :
    _shift_cmap (.listed colors) (some k) =
      .listed (colors.rotate (k % (colors.length : ℤ)).toNat) ∧
    (∀ m : ℤ, _shift_cmap (.listed colors) (some (m * colors.length)) = .listed colors) := by
  constructor
  · by_cases hk : k = 0
    · subst hk
      simp [_shift_cmap]
    · have hn : (0 : ℤ) < (colors.length : ℤ) := by exact_mod_cast h
      have h0 : 0 ≤ k % (colors.length : ℤ) := Int.emod_nonneg k (by omega)
      have h1 : k % (colors.length : ℤ) < (colors.length : ℤ) := Int.emod_lt_of_pos k hn
      have hlt : (k % (colors.length : ℤ)).toNat < colors.length := by omega
      rw [List.rotate_eq_drop_append_take hlt.le]
      simp [_shift_cmap, hk]
  · intro m
    by_cases hm : m * (colors.length : ℤ) = 0
    · rw [hm]; simp [_shift_cmap]
    · have : m * (colors.length : ℤ) % (colors.length : ℤ) = 0 := Int.mul_emod_left m _
      simp only [_shift_cmap, hm, if_neg, this]
      simp

/-- C9 witness: the theorem instantiated at a concrete 4-color cycle,
shifted by 2 and by 8. -/
theorem shift_listed_rotate_witness :
    _shift_cmap (.listed [(1,0,0),(2,0,0),(3,0,0),(4,0,0)]) (some 2) =
      .listed [(3,0,0),(4,0,0),(1,0,0),(2,0,0)] ∧
    _shift_cmap (.listed [(1,0,0),(2,0,0),(3,0,0),(4,0,0)]) (some 8) =
      .listed [(1,0,0),(2,0,0),(3,0,0),(4,0,0)] := by
  constructor
  · have h := (shift_listed_rotate [(1,0,0),(2,0,0),(3,0,0),(4,0,0)] 2 (by decide)).1
    rw [h]; decide
  · have h := (shift_listed_rotate [(1,0,0),(2,0,0),(3,0,0),(4,0,0)] 2 (by decide)).2 2
    exact (by norm_num at h ⊢; exact h)

/-- C3 counterexample: clipping a 2-color listed colormap with the
out-of-range integer bound `left = 5` does NOT raise — it returns an
empty listed colormap (Python integer slices clamp silently). -/
theorem clip_listed_oob_cex :
    _clip_cmap (.listed [(1,0,0),(0,1,0)]) (some 5) none = .ok (.listed []) := rfl

/-- C3 amended: clipping a discrete colormap slices its color list with
`[left:right]` under Python slice semantics — integer bounds clamp and
never raise (out-of-range bounds yield a possibly-empty colormap), and
the error is raised exactly when a supplied bound is not an integer. -/
theorem clip_listed_slice (colors : List Color) (a b : Option ℤ) :
    _clip_cmap (.listed colors) (a.map (Int.cast : ℤ → ℚ)) (b.map (Int.cast : ℤ → ℚ)) =
      .ok (.listed (pySliceL colors a b)) ∧
    (∀ q : ℚ, q.den ≠ 1 →
      _clip_cmap (.listed colors) (some q) none = .error "Invalid slice for listed colormap.") := by
  constructor
  · match a, b with
    | none, none =>
        simp [_clip_cmap, pySliceL, sliceBound]
    | none, some j =>
        simp [_clip_cmap, sliceArg?, qInt?]
    | some i, none =>
        simp [_clip_cmap, sliceArg?, qInt?]
    | some i, some j =>
        simp [_clip_cmap, sliceArg?, qInt?]
  · intro q hq
    simp [_clip_cmap, sliceArg?, qInt?, hq]

/-- C3 witness: the amended theorem instantiated at a 2-color list with
an integer bound and with the non-integer bound 5/2. -/
theorem clip_listed_slice_witness :
    _clip_cmap (.listed [(1,0,0),(0,1,0)]) (some 1) none = .ok (.listed [(0,1,0)]) ∧
    _clip_cmap (.listed [(1,0,0),(0,1,0)]) (some (5/2)) none =
      .error "Invalid slice for listed colormap." := by
  constructor
  · have h := (clip_listed_slice [(1,0,0),(0,1,0)] (some 1) none).1
    simp only [Option.map_some', Option.map_none', Int.cast_one] at h
    rw [h]; rfl
  · exact (clip_listed_slice [(1,0,0),(0,1,0)] none none).2 (5/2) (by norm_num [Rat.den])

/-- C2 counterexample: `MidpointNorm(midpoint=15, vmin=0, vmax=10)` is
constructed without any error (`__init__` performs no midpoint
validation); the hard error surfaces only when the instance is
evaluated. -/
theorem midpoint_construct_cex :
    MidpointNorm_init 15 0 10 = ⟨15, 0, 10⟩ ∧
    MidpointNorm_call (MidpointNorm_init 15 0 10) 5 =
      .error "Midpoint outside of vmin and vmax." := by
  exact ⟨rfl, rfl⟩

/-- C2 amended: the midpoint range check lives in `__call__`, not
`__init__` — every evaluation of an instance whose midpoint is outside
`(vmin, vmax)` raises, and for a valid instance evaluating the midpoint
itself returns exactly 1/2. -/
theorem midpoint_call_semantics (m vmin vmax : ℚ) :
    (vmin ≥ m ∨ vmax ≤ m → ∀ xq,
      MidpointNorm_call (MidpointNorm_init m vmin vmax) xq =
        .error "Midpoint outside of vmin and vmax.") ∧
    (vmin < m → m < vmax →
      MidpointNorm_call (MidpointNorm_init m vmin vmax) m = .ok (1/2)) := by
  constructor
  · intro hbad xq
    simp [MidpointNorm_call, MidpointNorm_init, hbad]
  · intro h1 h2
    have hne : m - vmin ≠ 0 := sub_ne_zero.mpr (ne_of_gt h1)
    have hcond : ¬ (vmin ≥ m ∨ vmax ≤ m) := by push_neg; exact ⟨h1, h2⟩
    simp only [MidpointNorm_call, MidpointNorm_init, hcond, if_false]
    have hss : searchsorted [vmin, m, vmax] m = 1 := by
      simp [searchsorted, h1, lt_irrefl]
    rw [npinterp_eval _ _ _ 1 hss (by norm_num) (by simp)]
    norm_num
    exact div_self hne

/-- C2 witness: the amended theorem instantiated at the out-of-range
instance (15, 0, 10) and at the valid instance (5, 0, 10). -/
theorem midpoint_call_semantics_witness :
    MidpointNorm_call (MidpointNorm_init 15 0 10) 7 =
      .error "Midpoint outside of vmin and vmax." ∧
    MidpointNorm_call (MidpointNorm_init 5 0 10) 5 = .ok (1/2) :=
  ⟨(midpoint_call_semantics 15 0 10).1 (by norm_num) 7,
   (midpoint_call_semantics 5 0 10).2 (by norm_num) (by norm_num)⟩

/-- C8: `make_mapping_array` raises whenever any supplied gamma value
lies outside `[0.01, 10]`, for both tabular and callable segment data
(the range check precedes all other processing); and for tabular data
with `r` rows, a gamma list whose length is neither 1 nor `r - 1` is
also a hard error. -/
theorem mma_gamma_validation (rp : ℚ → ℚ → ℚ) (N : ℕ) (data : SegInput)
    (gammas : List ℚ) (reverse : Bool) :
    ((∃ g ∈ gammas, g < 1/100 ∨ 10 < g) →
      make_mapping_array rp N data gammas reverse =
        .error "Gamma can only be in range [0.01,10].") ∧
    (∀ rows : List SegRow, rows ≠ [] → (∀ g ∈ gammas, ¬ (g < 1/100) ∧ ¬ (10 < g)) →
      gammas.length ≠ 1 → gammas.length ≠ rows.length - 1 →
      make_mapping_array rp N (.tabular rows) gammas reverse =
        .error "Need rows-1 gammas for rows-level mapping array.") := by
  constructor
  · rintro ⟨g, hg, hout⟩
    have hany : (gammas.any (fun g => decide (g < 1/100)) ||
        gammas.any (fun g => decide (10 < g))) = true := by
      simp only [Bool.or_eq_true, List.any_eq_true, decide_eq_true_eq]
      rcases hout with h | h
      · exact Or.inl ⟨g, hg, h⟩
      · exact Or.inr ⟨g, hg, h⟩
    simp only [make_mapping_array, hany, if_true]
  · intro rows hrows hin hlen1 hlen2
    have hany : (gammas.any (fun g => decide (g < 1/100)) ||
        gammas.any (fun g => decide (10 < g))) = false := by
      simp only [Bool.or_eq_false_iff, List.any_eq_false, decide_eq_true_eq]
      exact ⟨fun g hg => (hin g hg).1, fun g hg => (hin g hg).2⟩
    have hr0 : rows.length ≠ 0 := by simpa [List.length_eq_zero] using hrows
    simp only [make_mapping_array, hany, Bool.false_eq_true, if_false]
    rw [if_neg hr0, if_pos ⟨hlen1, hlen2⟩]

/-- C8 witness: the theorem instantiated at gamma 20 with callable data
and at a 2-gamma list with 4-row tabular data. -/
theorem mma_gamma_validation_witness :
    make_mapping_array (fun a _ => a) 3 (.functional id) [20] false =
      .error "Gamma can only be in range [0.01,10]." ∧
    make_mapping_array (fun a _ => a) 3
      (.tabular [(0,0,0), (1,1,1), (2,2,2), (3,3,3)]) [2,2] false =
      .error "Need rows-1 gammas for rows-level mapping array." := by
  constructor
  · exact (mma_gamma_validation (fun a _ => a) 3 (.functional id) [20] false).1
      ⟨20, by simp, Or.inr (by norm_num)⟩
  · exact (mma_gamma_validation (fun a _ => a) 3
      (.tabular [(0,0,0), (1,1,1), (2,2,2), (3,3,3)]) [2,2] false).2
      [(0,0,0), (1,1,1), (2,2,2), (3,3,3)] (by simp)
      (by intro g hg; fin_cases hg <;> constructor <;> norm_num)
      (by decide) (by decide)

/-- C1 counterexample: for the increasing single-segment data
`[(0,0,0), (1,1,1)]` with `gamma = 2` and `reverse = False` (power
modeled by squaring, exact for gamma 2), the lookup table is
`[0, 1/16, 1/4, 9/16, 1]` — the plain form `distance ** gamma`
(`(1/4)^2 = 1/16`) was used, not the inverted form
`1 - (1 - distance) ** gamma` (which would give 7/16) that the claim
predicts for increasing segments. -/
theorem mma_gamma_direction_cex :
    make_mapping_array (fun a _ => a * a) 5 (.tabular [(0,0,0),(1,1,1)]) [2] false =
      .ok [0, 1/16, 1/4, 9/16, 1] ∧
    (1 : ℚ) - (1 - 1/4) * (1 - 1/4) ≠ 1/16 := by
  constructor
  · norm_num [make_mapping_array, _apply_gamma, _gamma_step, mapPos, linspace, List.range_succ,
      searchsorted, List.dedup, List.pwFilter, List.count, List.indexOf, List.findIdx,
      List.findIdx.go, List.countP, List.countP.go, List.getD_cons_zero, List.getD_cons_succ]
    rw [show (([0, 4] : List ℚ))[1] = 4 from rfl]
    norm_num
  · norm_num

/-- C4: for every registry in which a colormap is stored under "rdbu"
and no entry is stored under the mirror name "burd", looking up "BuRd"
returns exactly the `reversed()` form of the entry registered under
"rdbu" (channel-for-channel, via `revCmap`). -/
theorem cmapdict_mirror_lookup (d : List (String × Cmap)) (m : Cmap)
    (h1 : dictLookup d "burd" = none) (h2 : dictLookup d "rdbu" = some m) :
    cmapdict_getitem d "BuRd" = .ok (revCmap m) := by
  have hl : strLower "BuRd" = "burd" := by decide
  have he : strEndsR "burd" = false := by decide
  have hm : mirrorKey "burd" = "rdbu" := by decide
  have he2 : strEndsR "rdbu_r" = true := by decide
  have hd2 : strDropR2 "rdbu_r" = "rdbu" := by decide
  unfold cmapdict_getitem _sanitize_key
  simp only [hl, he, h1, hm, h2, Option.isSome_none, Option.isSome_some, Bool.false_eq_true,
    Bool.not_false, if_true, if_false, ite_true, ite_false]
  rw [show ("rdbu" ++ "_r" : String) = "rdbu_r" from rfl]
  unfold _cmapdict_getitem_raw
  rw [he2, hd2, h2]
  simp

/-- C4 witness: the theorem instantiated at a concrete one-entry
registry holding a two-color listed colormap under "rdbu". -/
theorem cmapdict_mirror_lookup_witness :
    cmapdict_getitem [("rdbu", Cmap.listed [(1,0,0),(0,0,1)])] "BuRd" =
      .ok (Cmap.listed [(0,0,1),(1,0,0)]) := by
  have h := cmapdict_mirror_lookup [("rdbu", Cmap.listed [(1,0,0),(0,0,1)])]
    (Cmap.listed [(1,0,0),(0,0,1)]) (by decide) (by decide)
  rw [h]; rfl


/-- C5: for every valid `LinearSegmentedNorm` (strictly increasing
levels, at least two entries) and every data value `xq` with
`levels[0] ≤ xq ≤ levels[-1]`, the inverse applied to the forward call
returns `xq` exactly (rational arithmetic makes the float
approximation exact). -/
theorem lsnorm_inverse_call (levels : List ℚ) (h2 : 2 ≤ levels.length)
    (_hmono : levels.Chain' (· < ·)) (xq : ℚ)
    (hlo : levels.getD 0 0 ≤ xq) (hhi : xq ≤ levels.getD (levels.length - 1) 0) :
    LinearSegmentedNorm_inverse levels (LinearSegmentedNorm_call levels xq) = xq := by
  have hn2 : (2:ℚ) ≤ (levels.length : ℚ) := by exact_mod_cast h2
  have hn1 : (0:ℚ) < (levels.length:ℚ) - 1 := by linarith
  have hn1ne : ((levels.length:ℚ) - 1) ≠ 0 := ne_of_gt hn1
  have hylen : (linspace 0 1 levels.length).length = levels.length := linspace_length 0 1 _
  by_cases hs0 : searchsorted levels xq = 0
  · have hxle : xq ≤ levels.getD 0 0 := by
      have h := le_getD_searchsorted levels xq (by rw [hs0]; omega)
      rwa [hs0] at h
    have hxeq : levels.getD 0 0 = xq := le_antisymm hlo hxle
    have hy0 : (linspace 0 1 levels.length).getD 0 0 = 0 := by
      rw [linspace_getD _ 0 (by omega)]; norm_num
    have hcall : LinearSegmentedNorm_call levels xq = 0 := by
      unfold LinearSegmentedNorm_call
      rw [npinterp_eval0 _ _ _ hs0, hxeq, hy0, sub_self, zero_div, zero_mul, zero_add]
    have hssy : searchsorted (linspace 0 1 levels.length) 0 = 0 := by
      apply searchsorted_eq _ _ 0 (by omega) (fun k hk => absurd hk (Nat.not_lt_zero k))
      intro h
      rw [hy0]
    unfold LinearSegmentedNorm_inverse
    rw [hcall, npinterp_eval0 _ _ _ hssy, hy0]
    simpa using hxeq
  · obtain ⟨s, hs⟩ : ∃ s, searchsorted levels xq = s := ⟨_, rfl⟩
    rw [hs] at hs0
    have hs1 : 1 ≤ s := by omega
    have hsle := searchsorted_le_length levels xq
    rw [hs] at hsle
    have hslt : s < levels.length := by
      rcases lt_or_eq_of_le hsle with h | h
      · exact h
      · exfalso
        have hl : levels.getD (levels.length - 1) 0 < xq :=
          getD_lt_of_lt_searchsorted levels xq (levels.length - 1) (by rw [hs]; omega)
        exact absurd hhi (not_le.mpr hl)
    have hxl : levels.getD (s-1) 0 < xq :=
      getD_lt_of_lt_searchsorted levels xq (s-1) (by rw [hs]; omega)
    have hxr : xq ≤ levels.getD s 0 := by
      have h := le_getD_searchsorted levels xq (by rw [hs]; exact hslt)
      rwa [hs] at h
    have hdelta : 0 < levels.getD s 0 - levels.getD (s-1) 0 := by linarith
    have hdne : levels.getD s 0 - levels.getD (s-1) 0 ≠ 0 := ne_of_gt hdelta
    set d := (xq - levels.getD (s-1) 0) / (levels.getD s 0 - levels.getD (s-1) 0) with hd
    have hd0 : 0 < d := by rw [hd]; exact div_pos (by linarith) hdelta
    have hd1 : d ≤ 1 := by rw [hd]; exact (div_le_one hdelta).mpr (by linarith)
    have hys : (linspace 0 1 levels.length).getD s 0 = (s:ℚ)/((levels.length:ℚ)-1) :=
      linspace_getD _ s hslt
    have hys1 : (linspace 0 1 levels.length).getD (s-1) 0 =
        ((s:ℚ)-1)/((levels.length:ℚ)-1) := by
      rw [linspace_getD _ (s-1) (by omega), Nat.cast_sub hs1, Nat.cast_one]
    have hcall : LinearSegmentedNorm_call levels xq =
        (d + (s:ℚ) - 1)/((levels.length:ℚ)-1) := by
      unfold LinearSegmentedNorm_call
      rw [npinterp_eval _ _ _ s hs (by omega) (by omega), hys, hys1, ← hd]
      rw [div_sub_div_same]
      have h1 : ((s:ℚ) - ((s:ℚ)-1)) = 1 := by ring
      rw [h1]
      field_simp
      ring
    have hsy : searchsorted (linspace 0 1 levels.length)
        ((d + (s:ℚ) - 1)/((levels.length:ℚ)-1)) = s := by
      apply searchsorted_eq _ _ s (by rw [hylen]; omega)
      · intro k hk
        rw [linspace_getD _ k (by omega)]
        rw [div_lt_div_iff_of_pos_right hn1]
        have : (k:ℚ) ≤ (s:ℚ) - 1 := by
          have : (k:ℚ) + 1 ≤ (s:ℚ) := by exact_mod_cast Nat.succ_le_of_lt hk
          linarith
        linarith
      · intro hsn
        rw [hylen] at hsn
        rw [linspace_getD _ s hsn]
        rw [div_le_div_iff_of_pos_right hn1]
        linarith
    unfold LinearSegmentedNorm_inverse
    rw [hcall, npinterp_eval _ _ _ s hsy (by omega) (by rw [hylen]; omega), hys, hys1]
    have hsimp : ((d + (s:ℚ) - 1)/((levels.length:ℚ)-1) - ((s:ℚ)-1)/((levels.length:ℚ)-1)) /
        ((s:ℚ)/((levels.length:ℚ)-1) - ((s:ℚ)-1)/((levels.length:ℚ)-1)) = d := by
      rw [div_sub_div_same, div_sub_div_same]
      have h1 : (d + (s:ℚ) - 1 - ((s:ℚ)-1)) = d := by ring
      have h2 : ((s:ℚ) - ((s:ℚ)-1)) = 1 := by ring
      rw [h1, h2]
      field_simp
    rw [hsimp, hd, div_mul_cancel₀ _ hdne]
    ring

/-- C5 witness: the round trip at levels `[0, 1, 10]` and `xq = 4`. -/
theorem lsnorm_inverse_call_witness :
    LinearSegmentedNorm_inverse [0, 1, 10] (LinearSegmentedNorm_call [0, 1, 10] 4) = 4 :=
  lsnorm_inverse_call [0, 1, 10] (by decide) (by norm_num [List.chain'_cons]) 4
    (by norm_num) (by norm_num)

theorem getD_mem {α : Type} (l : List α) (k : ℕ) (d : α) (hk : k < l.length) :
    l.getD k d ∈ l := by
  rw [List.getD_eq_getElem l d hk]
  exact List.getElem_mem hk

theorem mapPos_length {α : Type} (f : ℕ → α → α) (p : ℕ) (l : List α) :
    (mapPos f p l).length = l.length := by
  induction l generalizing p with
  | nil => rfl
  | cons a rest ih => simp [mapPos, ih]

theorem mapPos_getD {α : Type} (f : ℕ → α → α) (p k : ℕ) (l : List α) (d : α)
    (hk : k < l.length) :
    (mapPos f p l).getD k d = f (p + k) (l.getD k d) := by
  induction l generalizing p k with
  | nil => simp at hk
  | cons a rest ih =>
    cases k with
    | zero => simp [mapPos]
    | succ k =>
      simp only [mapPos, List.getD_cons_succ]
      rw [ih (p + 1) k (by simpa using hk)]
      congr 1
      omega

theorem searchsorted_mono (a : List ℚ) (v w : ℚ) (hvw : v ≤ w) :
    searchsorted a v ≤ searchsorted a w := by
  induction a with
  | nil => simp [searchsorted]
  | cons x rest ih =>
    simp only [searchsorted]
    by_cases hx : x < v
    · rw [if_pos hx, if_pos (lt_of_lt_of_le hx hvw)]
      omega
    · rw [if_neg hx]
      exact Nat.zero_le _

theorem count_prefix_iff (t : List ℕ) (v : ℕ) (hs : t.Pairwise (· ≤ ·))
    (hall : ∀ b ∈ t, v ≤ b) (k : ℕ) (hk : k < t.length) :
    k < t.count v ↔ t.getD k 0 = v := by
  induction t generalizing k with
  | nil => simp at hk
  | cons b rest ih =>
    rw [List.pairwise_cons] at hs
    obtain ⟨hble, hrest⟩ := hs
    have hvb : v ≤ b := hall b (List.mem_cons_self _ _)
    by_cases hv : b = v
    · subst hv
      rw [List.count_cons_self]
      cases k with
      | zero => simp
      | succ k =>
        rw [List.getD_cons_succ]
        have hiff := ih hrest (fun x hx => hall x (List.mem_cons_of_mem _ hx)) k
          (by simpa using hk)
        constructor
        · intro h; exact hiff.mp (by omega)
        · intro h; have := hiff.mpr h; omega
    · have hvltb : v < b := lt_of_le_of_ne hvb (fun h => hv h.symm)
      have hnotmem : v ∉ b :: rest := by
        intro hmem
        rcases List.mem_cons.mp hmem with h | h
        · exact hv h.symm
        · exact absurd (hble v h) (not_le.mpr hvltb)
      rw [List.count_eq_zero.mpr hnotmem]
      simp only [Nat.not_lt_zero, false_iff]
      intro hgd
      have hm := getD_mem (b :: rest) k 0 hk
      rw [hgd] at hm
      exact hnotmem hm

theorem indexOf_count_run (I : List ℕ) (hI : I.Pairwise (· ≤ ·)) (v p : ℕ)
    (hp : p < I.length) :
    (I.indexOf v ≤ p ∧ p < I.indexOf v + I.count v) ↔ I.getD p 0 = v := by
  induction I generalizing p with
  | nil => simp at hp
  | cons b rest ih =>
    rw [List.pairwise_cons] at hI
    obtain ⟨hble, hrest⟩ := hI
    by_cases hv : b = v
    · subst hv
      rw [List.indexOf_cons_self, List.count_cons_self]
      cases p with
      | zero => simp
      | succ k =>
        rw [List.getD_cons_succ]
        have hiff := count_prefix_iff rest b hrest hble k (by simpa using hp)
        constructor
        · rintro ⟨-, h2⟩
          exact hiff.mp (by omega)
        · intro h
          have := hiff.mpr h
          exact ⟨Nat.zero_le _, by omega⟩
    · rw [List.indexOf_cons_ne _ (fun h => hv h), List.count_cons_of_ne (fun h => hv h.symm)]
      cases p with
      | zero =>
        simp only [List.getD_cons_zero]
        constructor
        · rintro ⟨h1, -⟩; omega
        · intro h; exact absurd h hv
      | succ k =>
        simp only [List.getD_cons_succ]
        have hiff := ih hrest k (by simpa using hp)
        constructor
        · rintro ⟨h1, h2⟩
          exact hiff.mp ⟨by omega, by omega⟩
        · intro h
          have h' := hiff.mpr h
          exact ⟨by omega, by omega⟩

theorem gamma_step_length (rp : ℚ → ℚ → ℚ) (gammas y0 y1 : List ℚ) (reverse : Bool)
    (I : List ℕ) (D : List ℚ) (v : ℕ) :
    (_gamma_step rp gammas y0 y1 reverse I D v).length = D.length := by
  simp only [_gamma_step]
  split
  · rfl
  · exact mapPos_length _ _ _

theorem gamma_step_getD (rp : ℚ → ℚ → ℚ) (gammas y0 y1 : List ℚ) (reverse : Bool)
    (I : List ℕ) (hI : I.Pairwise (· ≤ ·)) (D : List ℚ) (hlen : I.length = D.length)
    (u p : ℕ) (hp : p < D.length) :
    (_gamma_step rp gammas y0 y1 reverse I D u).getD p 0 =
      if I.getD p 0 = u then gammaPointwise rp gammas y0 y1 reverse I u (D.getD p 0)
      else D.getD p 0 := by
  have hrun := indexOf_count_run I hI u p (by omega)
  simp only [_gamma_step, gammaPointwise]
  by_cases hg : gammas.getD (u - 1) 0 = 1
  · rw [if_pos hg]
    by_cases hm : I.getD p 0 = u
    · rw [if_pos hm, if_pos hg]
    · rw [if_neg hm]
  · rw [if_neg hg, mapPos_getD _ 0 p D 0 hp, Nat.zero_add]
    by_cases hm : I.getD p 0 = u
    · rw [if_pos (hrun.mpr hm), if_pos hm, if_neg hg]
    · rw [if_neg (fun hc => hm (hrun.mp hc)), if_neg hm]

theorem gamma_fold_getD (rp : ℚ → ℚ → ℚ) (gammas y0 y1 : List ℚ) (reverse : Bool)
    (I : List ℕ) (hI : I.Pairwise (· ≤ ·)) (vs : List ℕ) (hvs : vs.Nodup)
    (D : List ℚ) (hlen : I.length = D.length) (p : ℕ) (hp : p < D.length) :
    (vs.foldl (_gamma_step rp gammas y0 y1 reverse I) D).getD p 0 =
      if I.getD p 0 ∈ vs then
        gammaPointwise rp gammas y0 y1 reverse I (I.getD p 0) (D.getD p 0)
      else D.getD p 0 := by
  induction vs generalizing D with
  | nil => simp
  | cons u vs' ih =>
    rw [List.nodup_cons] at hvs
    obtain ⟨hu, hvs'⟩ := hvs
    rw [List.foldl_cons]
    have hlen1 : I.length = (_gamma_step rp gammas y0 y1 reverse I D u).length := by
      rw [gamma_step_length]; exact hlen
    have hp1 : p < (_gamma_step rp gammas y0 y1 reverse I D u).length := by
      rw [gamma_step_length]; exact hp
    rw [ih hvs' _ hlen1 hp1, gamma_step_getD rp gammas y0 y1 reverse I hI D hlen u p hp]
    by_cases hm : I.getD p 0 = u
    · rw [if_pos hm, if_neg (by rw [hm]; exact hu),
        if_pos (by rw [hm]; exact List.mem_cons_self _ _), hm]
    · rw [if_neg hm]
      by_cases hm2 : I.getD p 0 ∈ vs'
      · rw [if_pos hm2, if_pos (List.mem_cons_of_mem _ hm2)]
      · rw [if_neg hm2, if_neg (by
          intro hc
          rcases List.mem_cons.mp hc with h | h
          · exact hm h
          · exact hm2 h)]

theorem apply_gamma_getD (rp : ℚ → ℚ → ℚ) (gammas y0 y1 : List ℚ) (reverse : Bool)
    (I : List ℕ) (hI : I.Pairwise (· ≤ ·)) (D : List ℚ) (hlen : I.length = D.length)
    (p : ℕ) (hp : p < D.length) :
    (_apply_gamma rp gammas y0 y1 reverse I D).getD p 0 =
      gammaPointwise rp gammas y0 y1 reverse I (I.getD p 0) (D.getD p 0) := by
  unfold _apply_gamma
  rw [gamma_fold_getD rp gammas y0 y1 reverse I hI I.dedup I.nodup_dedup D hlen p hp,
    if_pos (List.mem_dedup.mpr (getD_mem I p 0 (by omega)))]

theorem apply_gamma_length (rp : ℚ → ℚ → ℚ) (gammas y0 y1 : List ℚ) (reverse : Bool)
    (I : List ℕ) (D : List ℚ) :
    (_apply_gamma rp gammas y0 y1 reverse I D).length = D.length := by
  unfold _apply_gamma
  generalize I.dedup = vs
  induction vs generalizing D with
  | nil => rfl
  | cons u vs' ih =>
    rw [List.foldl_cons, ih, gamma_step_length]

theorem zip_tail_le (x : List ℚ) (hx : x.Chain' (· ≤ ·)) :
    ∀ pr ∈ x.tail.zip x, pr.2 ≤ pr.1 := by
  induction x with
  | nil => simp
  | cons a rest ih =>
    cases rest with
    | nil => simp
    | cons b t =>
      rw [List.chain'_cons] at hx
      intro pr hpr
      simp only [List.tail_cons, List.zip_cons_cons] at hpr
      rcases List.mem_cons.mp hpr with h | h
      · rw [h]; exact hx.1
      · exact ih hx.2 pr (by simpa using h)

theorem diff_any_false (x : List ℚ) (hx : x.Chain' (· ≤ ·)) :
    ((x.tail.zip x).map (fun p => p.1 - p.2)).any (fun d => decide (d < 0)) = false := by
  rw [List.any_eq_false]
  intro q hq
  simp only [List.mem_map] at hq
  obtain ⟨pr, hpr, rfl⟩ := hq
  simp only [decide_eq_true_eq, not_lt]
  have := zip_tail_le x hx pr hpr
  linarith

theorem xqIn_eq (N : ℕ) (hN : 2 ≤ N) :
    (((linspace 0 1 N).map (· * ((N:ℚ) - 1))).drop 1).dropLast =
      (List.range (N - 2)).map (fun k => ((k + 1 : ℕ) : ℚ)) := by
  have hNne : ((N:ℚ) - 1) ≠ 0 := by
    have : (2:ℚ) ≤ (N:ℚ) := by exact_mod_cast hN
    intro h
    nlinarith [h]
  have hlen : ((((linspace 0 1 N).map (· * ((N:ℚ) - 1))).drop 1).dropLast).length = N - 2 := by
    rw [List.length_dropLast, List.length_drop, List.length_map, linspace_length]
    omega
  apply List.ext_getElem
  · rw [hlen, List.length_map, List.length_range]
  · intro i h1 h2
    rw [hlen] at h1
    rw [List.getElem_dropLast, List.getElem_drop, List.getElem_map, List.getElem_map,
      List.getElem_range]
    have hi1 : 1 + i < N := by omega
    rw [← List.getD_eq_getElem (linspace 0 1 N) 0 (by rw [linspace_length]; omega),
      linspace_getD N (1 + i) hi1, div_mul_cancel₀ _ hNne]
    congr 1
    omega

/-- C1 amended: in `make_mapping_array` over validated tabular segment
data, every interior lookup-table entry equals the linear interpolation
of the per-position gamma-warped distance (`gammaPointwise`): the plain
form `rp distance gamma` is used by default, and the inverted form
`1 - rp (1 - distance) gamma` is used exactly when `reverse` XOR (the
bracketing segment holds more than one lookup position AND its net
channel difference `y0[v] - y1[v-1]` is strictly NEGATIVE) — the
direction is decreasing, not increasing as the original claim said. -/
theorem make_mapping_array_gamma_rule (rp : ℚ → ℚ → ℚ) (N : ℕ) (rows : List SegRow)
    (gammas : List ℚ) (reverse : Bool) (p : ℕ) (hN : 2 ≤ N) (hr : rows ≠ [])
    (hg1 : ∀ g ∈ gammas, ¬ (g < 1/100) ∧ ¬ (10 < g))
    (hglen : gammas.length = 1 ∨ gammas.length = rows.length - 1)
    (hx0 : (rows.map (·.1)).getD 0 0 = 0)
    (hx1 : (rows.map (·.1)).getD (rows.length - 1) 0 = 1)
    (hxmono : (rows.map (·.1)).Chain' (· < ·))
    (hp1 : 1 ≤ p) (hp2 : p ≤ N - 2) :
    let xs := (rows.map (·.1)).map (· * ((N : ℚ) - 1))
    let y0c := rows.map (·.2.1)
    let y1c := rows.map (·.2.2)
    let gfull := if gammas.length = 1 then List.replicate rows.length (gammas.getD 0 0)
      else gammas
    let xqIn := (((linspace 0 1 N).map (· * ((N : ℚ) - 1))).drop 1).dropLast
    let I := xqIn.map (searchsorted xs)
    let D := (xqIn.zip I).map (fun pr =>
      (pr.1 - xs.getD (pr.2 - 1) 0) / (xs.getD pr.2 0 - xs.getD (pr.2 - 1) 0))
    let interior := ((_apply_gamma rp gfull y0c y1c reverse I D).zip I).map (fun pr =>
      pr.1 * (y0c.getD pr.2 0 - y1c.getD (pr.2 - 1) 0) + y1c.getD (pr.2 - 1) 0)
    let lut := [y1c.getD 0 0] ++ interior ++ [y0c.getD (rows.length - 1) 0]
    let v := searchsorted xs ((p : ℕ) : ℚ)
    let dist := (((p : ℕ) : ℚ) - xs.getD (v - 1) 0) / (xs.getD v 0 - xs.getD (v - 1) 0)
    make_mapping_array rp N (.tabular rows) gammas reverse = .ok lut ∧
      lut.getD p 0 =
        gammaPointwise rp gfull y0c y1c reverse I v dist *
            (y0c.getD v 0 - y1c.getD (v - 1) 0) + y1c.getD (v - 1) 0 := by
  intro xs y0c y1c gfull xqIn I D interior lut v dist
  have hany : (gammas.any (fun g => decide (g < 1/100)) ||
      gammas.any (fun g => decide (10 < g))) = false := by
    simp only [Bool.or_eq_false_iff, List.any_eq_false, decide_eq_true_eq]
    exact ⟨fun g hg => (hg1 g hg).1, fun g hg => (hg1 g hg).2⟩
  have hr0 : rows.length ≠ 0 := by simpa [List.length_eq_zero] using hr
  have hlen' : ¬ (gammas.length ≠ 1 ∧ gammas.length ≠ rows.length - 1) := by
    rcases hglen with h | h
    · exact fun hc => hc.1 h
    · exact fun hc => hc.2 h
  have hxc : ¬ ¬ ((rows.map (·.1)).getD 0 0 = 0 ∧
      (rows.map (·.1)).getD (rows.length - 1) 0 = 1) := not_not_intro ⟨hx0, hx1⟩
  have hdifff := diff_any_false (rows.map (·.1))
    (List.Chain'.imp (fun a b h => le_of_lt h) hxmono)
  constructor
  · simp only [make_mapping_array, hany, Bool.false_eq_true, if_false]
    rw [if_neg hr0, if_neg hlen', if_neg hxc, hdifff]
    simp only [Bool.false_eq_true, if_false]
  · have hxq2 : xqIn = (List.range (N - 2)).map (fun k => ((k + 1 : ℕ) : ℚ)) := xqIn_eq N hN
    have hxqlen : xqIn.length = N - 2 := by
      rw [hxq2, List.length_map, List.length_range]
    have hIeq : I = xqIn.map (searchsorted xs) := rfl
    have hIlen : I.length = N - 2 := by
      rw [hIeq, List.length_map, hxqlen]
    have hDeq : D = (xqIn.zip I).map (fun pr =>
        (pr.1 - xs.getD (pr.2 - 1) 0) / (xs.getD pr.2 0 - xs.getD (pr.2 - 1) 0)) := rfl
    have hDlen : D.length = N - 2 := by
      rw [hDeq, List.length_map, List.length_zip, hxqlen, hIlen, Nat.min_self]
    have hxq_getD : ∀ k, k < N - 2 → xqIn.getD k 0 = ((k + 1 : ℕ) : ℚ) := by
      intro k hk
      rw [hxq2, List.getD_eq_getElem _ _ (by rw [List.length_map, List.length_range]; exact hk),
        List.getElem_map, List.getElem_range]
    have hI_getD : ∀ k, k < N - 2 → I.getD k 0 = searchsorted xs ((k + 1 : ℕ) : ℚ) := by
      intro k hk
      rw [hIeq, List.getD_eq_getElem _ _ (by rw [List.length_map, hxqlen]; exact hk),
        List.getElem_map]
      congr 1
      rw [← List.getD_eq_getElem _ 0 (by rw [hxqlen]; exact hk)]
      exact hxq_getD k hk
    have hIsort : I.Pairwise (· ≤ ·) := by
      rw [hIeq, hxq2, List.map_map]
      apply List.Pairwise.map (R := (· < ·))
      · intro a b hab
        simp only [Function.comp]
        exact searchsorted_mono xs _ _ (by exact_mod_cast Nat.succ_le_succ hab.le)
      · exact List.pairwise_lt_range _
    obtain ⟨k, rfl⟩ : ∃ k, p = k + 1 := ⟨p - 1, by omega⟩
    have hk2 : k < N - 2 := by omega
    have hintlen : interior.length = N - 2 := by
      show (((_apply_gamma rp gfull y0c y1c reverse I D).zip I).map _).length = N - 2
      rw [List.length_map, List.length_zip, apply_gamma_length, hDlen, hIlen, Nat.min_self]
    have hlut : lut.getD (k + 1) 0 = interior.getD k 0 := by
      show ([y1c.getD 0 0] ++ interior ++ [y0c.getD (rows.length - 1) 0]).getD (k + 1) 0 = _
      rw [List.append_assoc, List.singleton_append, List.getD_cons_succ,
        List.getD_append _ _ _ _ (by rw [hintlen]; exact hk2)]
    have hD2k : (_apply_gamma rp gfull y0c y1c reverse I D).getD k 0 =
        gammaPointwise rp gfull y0c y1c reverse I (I.getD k 0) (D.getD k 0) :=
      apply_gamma_getD rp gfull y0c y1c reverse I hIsort D (by rw [hIlen, hDlen])
        k (by rw [hDlen]; exact hk2)
    have hIk : I.getD k 0 = v := hI_getD k hk2
    have hDk : D.getD k 0 = dist := by
      rw [hDeq, List.getD_eq_getElem _ _
          (by rw [List.length_map, List.length_zip, hxqlen, hIlen, Nat.min_self]; exact hk2),
        List.getElem_map, List.getElem_zip]
      rw [← List.getD_eq_getElem xqIn 0 (by rw [hxqlen]; exact hk2),
        ← List.getD_eq_getElem I 0 (by rw [hIlen]; exact hk2), hxq_getD k hk2, hIk]
    rw [hlut]
    rw [show interior.getD k 0 = (((_apply_gamma rp gfull y0c y1c reverse I D).zip I).map
        (fun pr => pr.1 * (y0c.getD pr.2 0 - y1c.getD (pr.2 - 1) 0) +
          y1c.getD (pr.2 - 1) 0)).getD k 0 from rfl]
    rw [List.getD_eq_getElem _ _
        (by rw [List.length_map, List.length_zip, apply_gamma_length, hDlen, hIlen, Nat.min_self]
            exact hk2),
      List.getElem_map, List.getElem_zip]
    rw [← List.getD_eq_getElem (_apply_gamma rp gfull y0c y1c reverse I D) 0
          (by rw [apply_gamma_length, hDlen]; exact hk2),
      ← List.getD_eq_getElem I 0 (by rw [hIlen]; exact hk2), hD2k, hIk, hDk]

/-- C1 witness: the amended theorem instantiated at the concrete
single-segment data `[(0,0,0), (1,1,1)]`, `N = 5`, gamma list `[2]`,
`reverse = False`, position 2, with squaring as the power function. -/
theorem make_mapping_array_gamma_rule_witness :
    let xs := (([(0,0,0),(1,1,1)] : List SegRow).map (·.1)).map (· * ((5 : ℚ) - 1))
    let y0c := ([(0,0,0),(1,1,1)] : List SegRow).map (·.2.1)
    let y1c := ([(0,0,0),(1,1,1)] : List SegRow).map (·.2.2)
    let gfull := if ([2] : List ℚ).length = 1 then
        List.replicate ([(0,0,0),(1,1,1)] : List SegRow).length (([2] : List ℚ).getD 0 0)
      else [2]
    let xqIn := (((linspace 0 1 5).map (· * ((5 : ℚ) - 1))).drop 1).dropLast
    let I := xqIn.map (searchsorted xs)
    let D := (xqIn.zip I).map (fun pr =>
      (pr.1 - xs.getD (pr.2 - 1) 0) / (xs.getD pr.2 0 - xs.getD (pr.2 - 1) 0))
    let interior := ((_apply_gamma (fun a _ => a * a) gfull y0c y1c false I D).zip I).map
      (fun pr => pr.1 * (y0c.getD pr.2 0 - y1c.getD (pr.2 - 1) 0) + y1c.getD (pr.2 - 1) 0)
    let lut := [y1c.getD 0 0] ++ interior ++
      [y0c.getD (([(0,0,0),(1,1,1)] : List SegRow).length - 1) 0]
    let v := searchsorted xs ((2 : ℕ) : ℚ)
    let dist := (((2 : ℕ) : ℚ) - xs.getD (v - 1) 0) / (xs.getD v 0 - xs.getD (v - 1) 0)
    make_mapping_array (fun a _ => a * a) 5 (.tabular [(0,0,0),(1,1,1)]) [2] false = .ok lut ∧
      lut.getD 2 0 =
        gammaPointwise (fun a _ => a * a) gfull y0c y1c false I v dist *
            (y0c.getD v 0 - y1c.getD (v - 1) 0) + y1c.getD (v - 1) 0 :=
  make_mapping_array_gamma_rule (fun a _ => a * a) 5 [(0,0,0),(1,1,1)] [2] false 2
    (by decide) (by simp)
    (by intro g hg; fin_cases hg <;> constructor <;> norm_num)
    (Or.inl rfl) rfl rfl (by norm_num [List.chain'_cons]) (by decide) (by decide)

theorem searchsorted_all_lt (a : List ℚ) (v : ℚ) (h : ∀ t ∈ a, t < v) :
    searchsorted a v = a.length := by
  induction a with
  | nil => rfl
  | cons x rest ih =>
    simp only [searchsorted, List.length_cons]
    rw [if_pos (h x (List.mem_cons_self _ _)), ih (fun t ht => h t (List.mem_cons_of_mem _ ht))]

theorem foldr_min_le (l : List ℚ) (i a : ℚ) (ha : a ∈ l) : l.foldr min i ≤ a := by
  induction l with
  | nil => simp at ha
  | cons x rest ih =>
    rcases List.mem_cons.mp ha with h | h
    · rw [h]; exact min_le_left _ _
    · exact le_trans (min_le_right _ _) (ih h)

theorem le_foldr_max (l : List ℚ) (i a : ℚ) (ha : a ∈ l) : a ≤ l.foldr max i := by
  induction l with
  | nil => simp at ha
  | cons x rest ih =>
    rcases List.mem_cons.mp ha with h | h
    · rw [h]; exact le_max_left _ _
    · exact le_trans (ih h) (le_max_right _ _)

theorem npmin_le (l : List ℚ) (a : ℚ) (ha : a ∈ l) : npmin l ≤ a := foldr_min_le l _ a ha

theorem le_npmax (l : List ℚ) (a : ℚ) (ha : a ∈ l) : a ≤ npmax l := le_foldr_max l _ a ha

set_option maxHeartbeats 1000000 in
/-- C10 amended: for every constructible `BinNorm` (valid levels and
extend mode, any `step`, any pre-normalizer) the index array `y` starts
at exactly 0 and ends at exactly 1, every `__call__` result is an
element of `y`, the output 0 is attained at `levels[0]`, and the output
1 is attained at any query whose pre-normalized value exceeds every
pre-normalized level; additionally, whenever `0 ≤ step ≤ len(levels)`,
all outputs lie in `[0, 1]`.  (Without the `step` bound that `[0, 1]`
containment fails — see the counterexample.) -/
theorem binnorm_outputs (levels : List ℚ) (normf : ℚ → ℚ) (step : ℚ) (extend : String)
    (b : BinNormS) (hinit : BinNorm_init levels normf step extend = .ok b) :
    (b.y.headD 0 = 0 ∧ b.y.getLastD 0 = 1) ∧
    (∀ xq, BinNorm_call b xq ∈ b.y) ∧
    (0 ≤ step → step ≤ (levels.length : ℚ) →
      ∀ xq, 0 ≤ BinNorm_call b xq ∧ BinNorm_call b xq ≤ 1) ∧
    BinNorm_call b (levels.getD 0 0) = 0 ∧
    (∀ xq, (∀ t ∈ b.x_b, t < normf xq) → BinNorm_call b xq = 1) := by
  unfold BinNorm_init at hinit
  by_cases h1 : levels.length ≤ 1
  · rw [if_pos h1] at hinit; exact absurd hinit (by simp)
  rw [if_neg h1] at hinit
  by_cases h2 : ((levels.tail.zip levels).map (fun p => p.1 - p.2)).any
      (fun d => decide (d ≤ 0)) = true
  · rw [if_pos h2] at hinit; exact absurd hinit (by simp)
  rw [if_neg h2] at hinit
  by_cases h3 : ¬ (extend = "both" ∨ extend = "min" ∨ extend = "max" ∨ extend = "neither")
  · rw [if_pos h3] at hinit; exact absurd hinit (by simp)
  rw [if_neg h3] at hinit
  push_neg at h3
  simp only [Except.ok.injEq] at hinit
  subst hinit
  dsimp only [BinNorm_call]
  set xb := levels.map normf with hxb
  set xm := (xb.tail.zip xb).map (fun p => (p.1 + p.2) / 2) with hxm
  set mn := npmin xm with hmn
  set mx := npmax xm with hmx
  set eps := step / (levels.length : ℚ) with heps
  set ynorm := xm.map (fun t => (t - mn) / (mx - mn)) with hynorm
  set off := (if extend = "min" ∨ extend = "both" then eps else 0) with hoff
  set scl := ((if extend = "min" ∨ extend = "both" then 1 - eps else 1) -
    (if extend = "max" ∨ extend = "both" then eps else 0)) with hscl
  set mid := ynorm.map (fun t => off + scl * t) with hmid
  have hn2 : 2 ≤ levels.length := by omega
  have hnq : (0:ℚ) < (levels.length : ℚ) := by
    have : (2:ℚ) ≤ (levels.length : ℚ) := by exact_mod_cast hn2
    linarith
  have hxblen : xb.length = levels.length := by rw [hxb]; exact List.length_map _ _
  have hxmlen : xm.length = levels.length - 1 := by
    rw [hxm, List.length_map, List.length_zip, List.length_tail, hxblen]
    omega
  have hmidlen : mid.length = levels.length - 1 := by
    rw [hmid, List.length_map, hynorm, List.length_map, hxmlen]
  have hylen : ([0] ++ mid ++ [1] : List ℚ).length = levels.length + 1 := by
    simp only [List.length_append, hmidlen, List.length_singleton]
    omega
  refine ⟨⟨?_, ?_⟩, ?_, ?_, ?_, ?_⟩
  · rfl
  · exact List.getLastD_concat _ _ _
  · intro xq
    apply getD_mem
    have := searchsorted_le_length xb (normf xq)
    omega
  · intro hstep0 hstepn xq
    have heps0 : 0 ≤ eps := by rw [heps]; exact div_nonneg hstep0 hnq.le
    have heps1 : eps ≤ 1 := by rw [heps, div_le_one hnq]; exact hstepn
    have hel : ∀ t ∈ ([0] ++ mid ++ [1] : List ℚ), 0 ≤ t ∧ t ≤ 1 := by
      intro t ht
      rcases List.mem_append.mp ht with h | h
      · rcases List.mem_append.mp h with h | h
        · have ht0 : t = 0 := by simpa using h
          rw [ht0]; norm_num
        · rw [hmid] at h
          obtain ⟨u, hu, rfl⟩ := List.mem_map.mp h
          rw [hynorm] at hu
          obtain ⟨w, hw, rfl⟩ := List.mem_map.mp hu
          have hmnw : mn ≤ w := by rw [hmn]; exact npmin_le xm w hw
          have hmxw : w ≤ mx := by rw [hmx]; exact le_npmax xm w hw
          have ht0 : 0 ≤ (w - mn) / (mx - mn) ∧ (w - mn) / (mx - mn) ≤ 1 := by
            rcases eq_or_lt_of_le (le_trans hmnw hmxw) with he | hlt
            · have hw0 : w = mn := le_antisymm (he ▸ hmxw) hmnw
              rw [hw0, sub_self, zero_div]
              norm_num
            · constructor
              · exact div_nonneg (by linarith) (by linarith)
              · rw [div_le_one (by linarith)]; linarith
          rw [hoff, hscl]
          by_cases cmin : extend = "min" ∨ extend = "both" <;>
            by_cases cmax : extend = "max" ∨ extend = "both"
          · simp only [if_pos cmin, if_pos cmax]
            constructor <;> nlinarith [ht0.1, ht0.2, heps0, heps1]
          · simp only [if_pos cmin, if_neg cmax]
            constructor <;> nlinarith [ht0.1, ht0.2, heps0, heps1]
          · simp only [if_neg cmin, if_pos cmax]
            constructor <;> nlinarith [ht0.1, ht0.2, heps0, heps1]
          · simp only [if_neg cmin, if_neg cmax]
            constructor <;> nlinarith [ht0.1, ht0.2, heps0, heps1]
      · have ht1 : t = 1 := by simpa using h
        rw [ht1]; norm_num
    apply hel
    apply getD_mem
    have := searchsorted_le_length xb (normf xq)
    omega
  · have hx00 : xb.getD 0 0 = normf (levels.getD 0 0) := by
      rw [hxb, List.getD_eq_getElem _ _ (by rw [List.length_map]; omega), List.getElem_map]
      congr 1
      rw [← List.getD_eq_getElem _ 0 (by omega)]
    have hss0 : searchsorted xb (normf (levels.getD 0 0)) = 0 := by
      apply searchsorted_eq _ _ 0 (Nat.zero_le _) (fun k hk => absurd hk (Nat.not_lt_zero _))
      intro h
      rw [hx00]
    rw [hss0]
    rfl
  · intro xq hall
    rw [searchsorted_all_lt xb (normf xq) hall]
    rw [List.getD_append_right _ _ _ _ (by
      simp only [List.length_append, hmidlen, List.length_singleton]
      omega)]
    have hidx : xb.length - ([0] ++ mid : List ℚ).length = 0 := by
      simp only [List.length_append, hmidlen, List.length_singleton, hxblen]
      omega
    rw [hidx]
    rfl

/-- C10 counterexample: with `step = 10` (never validated by
`__init__`), `BinNorm(levels=[0,1,2], extend=min)` with the default
linear pre-normalizer maps the in-range value 0.5 to 10/3, which is an
element of the index array but lies outside `[0, 1]` — refuting the
claim for arbitrary `step`. -/
theorem binnorm_range_cex :
    (BinNorm_init [0, 1, 2] (fun q => (q - 0) / (2 - 0)) 10 "min").map
        (fun b => BinNorm_call b (1/2)) = .ok (10/3) ∧
    ¬ ((10:ℚ)/3 ≤ 1) := by
  constructor
  · have hs : ¬(("min" : String) = "max" ∨ ("min" : String) = "both") := by decide
    norm_num [BinNorm_init, BinNorm_call, npmin, npmax, searchsorted, List.zip_cons_cons,
      List.map_cons, List.any_cons, List.any_nil, List.getD_cons_zero, List.getD_cons_succ,
      min_def, max_def, hs, Except.map]
  · norm_num

/-- C10 witness: the amended theorem instantiated at
`BinNorm(levels=[0,10,20,30], step=1, extend=neither)` with the default
linear pre-normalizer: the bottom level maps to 0 and an above-range
value maps to 1. -/
theorem binnorm_outputs_witness :
    BinNorm_call ⟨fun q => (q - 0) / (30 - 0), [0, 1/3, 2/3, 1], [0, 0, 1/2, 1, 1]⟩
      (([0, 10, 20, 30] : List ℚ).getD 0 0) = 0 ∧
    BinNorm_call ⟨fun q => (q - 0) / (30 - 0), [0, 1/3, 2/3, 1], [0, 0, 1/2, 1, 1]⟩ 35 = 1 ∧
    (0 ≤ BinNorm_call ⟨fun q => (q - 0) / (30 - 0), [0, 1/3, 2/3, 1], [0, 0, 1/2, 1, 1]⟩ 15 ∧
      BinNorm_call ⟨fun q => (q - 0) / (30 - 0), [0, 1/3, 2/3, 1], [0, 0, 1/2, 1, 1]⟩ 15 ≤ 1) := by
  have hs1 : ¬(("neither" : String) = "min" ∨ ("neither" : String) = "both") := by decide
  have hs2 : ¬(("neither" : String) = "max" ∨ ("neither" : String) = "both") := by decide
  have h := binnorm_outputs [0, 10, 20, 30] (fun q => (q - 0) / (30 - 0)) 1 "neither"
    ⟨fun q => (q - 0) / (30 - 0), [0, 1/3, 2/3, 1], [0, 0, 1/2, 1, 1]⟩
    (by norm_num [BinNorm_init, npmin, npmax, List.zip_cons_cons, List.map_cons,
      List.any_cons, List.any_nil, min_def, max_def, hs1, hs2])
  exact ⟨h.2.2.2.1, h.2.2.2.2 35 (by intro t ht; fin_cases ht <;> norm_num),
    h.2.2.1 (by norm_num) (by norm_num) 15⟩
